import Mathlib

/-!
Shallow embedding of the ENS bulk-subdomain claim-authorization core:
the off-chain Merkle tree builder (backend merkle controller, using
merkletreejs with sortPairs and sortLeaves plus ethers
solidityPackedKeccak256) and the on-chain BulkSubdomainFactory contract
(the enhanced version with custom errors).

Keccak-256 is modelled as a free term constructor over byte lists: two
digests are equal exactly when they were produced from the same input
bytes (the ideal collision-free hash abstraction).  Sorting of sibling
pairs by digest value is modelled by a fixed structural linear order on
digest terms.  Solidity storage mappings become association lists with
explicit defaults, reverts become Except errors (a revert rolls back
every write, so an error carries no successor state), and the external
NameWrapper registrar is abstracted: its getData expiry lookup is an
input to claimSubdomain and the final setSubnodeRecord call lies outside
the ledger state.
-/

/-- Big-endian fixed-width byte encoding of a natural number: w bytes,
using the value modulo 256 to the w. -/
def beBytes : Nat → Nat → List Nat
  | 0, _ => []
  | w + 1, n => beBytes w (n / 256) ++ [n % 256]

/-- UTF-8 encoding of one character, as byte values. -/
def utf8Bytes (c : Char) : List Nat :=
  let n := c.toNat
  if n < 128 then [n]
  else if n < 2048 then [192 + n / 64, 128 + n % 64]
  else if n < 65536 then [224 + n / 4096, 128 + (n / 64) % 64, 128 + n % 64]
  else [240 + n / 262144, 128 + (n / 4096) % 64, 128 + (n / 64) % 64, 128 + n % 64]

/-- UTF-8 byte encoding of a string, as used both by the Solidity string
calldata in abi.encodePacked and by the ethers packed encoder. -/
def encString (s : String) : List Nat :=
  s.data.foldr (fun c acc => utf8Bytes c ++ acc) []

/-- Byte-string / digest terms: a 32-byte literal word, a keccak-256 hash
of packed bytes, or a keccak-256 hash of the concatenation of two
digests (an inner Merkle node).  Free constructors model an ideal,
collision-free keccak. -/
inductive B32 where
  | lit : Nat → B32
  | hashLeaf : List Nat → B32
  | hashNode : B32 → B32 → B32
deriving DecidableEq, Repr

/-- Lexicographic comparison of byte lists, the order Buffer.compare
induces on raw byte strings. -/
def leL : List Nat → List Nat → Bool
  | [], _ => true
  | _ :: _, [] => false
  | a :: as, b :: bs =>
    if a < b then true
    else if b < a then false
    else leL as bs

theorem leL_refl (l : List Nat) : leL l l = true := by
  induction l with
  | nil => rfl
  | cons a as ih => simp [leL, ih]

theorem leL_total (l m : List Nat) : leL l m = true ∨ leL m l = true := by
  induction l generalizing m with
  | nil => left; rfl
  | cons a as ih =>
    cases m with
    | nil => right; rfl
    | cons b bs =>
      by_cases hab : a < b
      · left; simp [leL, hab]
      · by_cases hba : b < a
        · right; simp [leL, hba]
        · have : a = b := by omega
          subst this
          rcases ih bs with h | h
          · left; simp [leL, h]
          · right; simp [leL, h]

theorem leL_antisymm (l m : List Nat) (h1 : leL l m = true) (h2 : leL m l = true) :
    l = m := by
  induction l generalizing m with
  | nil =>
    cases m with
    | nil => rfl
    | cons b bs => simp [leL] at h2
  | cons a as ih =>
    cases m with
    | nil => simp [leL] at h1
    | cons b bs =>
      simp only [leL] at h1 h2
      by_cases hab : a < b
      · rw [if_neg (by omega), if_pos hab] at h2
        simp at h2
      · by_cases hba : b < a
        · rw [if_neg hab, if_pos hba] at h1
          simp at h1
        · have hab' : a = b := by omega
          subst hab'
          rw [if_neg hab, if_neg hab] at h1
          rw [if_neg hab, if_neg hab] at h2
          rw [ih bs h1 h2]

theorem leL_trans (l m n : List Nat) (h1 : leL l m = true) (h2 : leL m n = true) :
    leL l n = true := by
  induction l generalizing m n with
  | nil => rfl
  | cons a as ih =>
    cases m with
    | nil => simp [leL] at h1
    | cons b bs =>
      cases n with
      | nil => simp [leL] at h2
      | cons c cs =>
        simp only [leL] at h1 h2 ⊢
        by_cases hab : a < b
        · by_cases hbc : b < c
          · rw [if_pos (by omega)]
          · by_cases hcb : c < b
            · rw [if_neg hbc, if_pos hcb] at h2
              simp at h2
            · have hbc' : b = c := by omega
              subst hbc'
              rw [if_pos hab]
        · by_cases hba : b < a
          · rw [if_neg hab, if_pos hba] at h1
            simp at h1
          · have hab' : a = b := by omega
            subst hab'
            rw [if_neg hab, if_neg hab] at h1
            by_cases hbc : a < c
            · rw [if_pos hbc]
            · by_cases hcb : c < a
              · rw [if_neg hbc, if_pos hcb] at h2
                simp at h2
              · have hbc' : a = c := by omega
                subst hbc'
                rw [if_neg hbc, if_neg hbc] at h2
                rw [if_neg hbc, if_neg hbc]
                exact ih bs cs h1 h2

/-- Total structural order on digest terms, standing in for the byte
order on concrete 32-byte keccak outputs. -/
def leB : B32 → B32 → Bool
  | .lit m, .lit n => m ≤ n
  | .lit _, .hashLeaf _ => true
  | .lit _, .hashNode _ _ => true
  | .hashLeaf _, .lit _ => false
  | .hashLeaf a, .hashLeaf b => leL a b
  | .hashLeaf _, .hashNode _ _ => true
  | .hashNode _ _, .lit _ => false
  | .hashNode _ _, .hashLeaf _ => false
  | .hashNode a b, .hashNode c d => if a = c then leB b d else leB a c

theorem leB_total (x y : B32) : leB x y = true ∨ leB y x = true := by
  induction x generalizing y with
  | lit m =>
    cases y with
    | lit n =>
      rcases Nat.le_total m n with h | h
      · left; simpa [leB] using h
      · right; simpa [leB] using h
    | hashLeaf b => left; rfl
    | hashNode c d => left; rfl
  | hashLeaf a =>
    cases y with
    | lit n => right; rfl
    | hashLeaf b => simpa [leB] using leL_total a b
    | hashNode c d => left; rfl
  | hashNode a b iha ihb =>
    cases y with
    | lit n => right; rfl
    | hashLeaf w => right; rfl
    | hashNode c d =>
      by_cases hac : a = c
      · subst hac
        simpa [leB] using ihb d
      · have hca : ¬ c = a := fun h => hac h.symm
        simp only [leB, if_neg hac, if_neg hca]
        exact iha c

theorem leB_antisymm (x y : B32) (h1 : leB x y = true) (h2 : leB y x = true) :
    x = y := by
  induction x generalizing y with
  | lit m =>
    cases y with
    | lit n =>
      simp only [leB, decide_eq_true_eq] at h1 h2
      have hmn : m = n := Nat.le_antisymm h1 h2
      rw [hmn]
    | hashLeaf b => simp [leB] at h2
    | hashNode c d => simp [leB] at h2
  | hashLeaf a =>
    cases y with
    | lit n => simp [leB] at h1
    | hashLeaf b =>
      simp only [leB] at h1 h2
      rw [leL_antisymm a b h1 h2]
    | hashNode c d => simp [leB] at h2
  | hashNode a b iha ihb =>
    cases y with
    | lit n => simp [leB] at h1
    | hashLeaf w => simp [leB] at h1
    | hashNode c d =>
      by_cases hac : a = c
      · subst hac
        simp only [leB, if_pos rfl] at h1 h2
        rw [ihb d h1 h2]
      · have hca : ¬ c = a := fun h => hac h.symm
        simp only [leB, if_neg hac, if_neg hca] at h1 h2
        exact absurd (iha c h1 h2) hac

theorem leB_trans (x y z : B32) (h1 : leB x y = true) (h2 : leB y z = true) :
    leB x z = true := by
  induction x generalizing y z with
  | lit m =>
    cases y with
    | lit n =>
      cases z with
      | lit k => simp [leB] at h1 h2 ⊢; omega
      | hashLeaf b => rfl
      | hashNode c d => rfl
    | hashLeaf b =>
      cases z with
      | lit k => simp [leB] at h2
      | hashLeaf w => rfl
      | hashNode c d => rfl
    | hashNode c d =>
      cases z with
      | lit k => simp [leB] at h2
      | hashLeaf w => simp [leB] at h2
      | hashNode e f => rfl
  | hashLeaf a =>
    cases y with
    | lit n => simp [leB] at h1
    | hashLeaf b =>
      cases z with
      | lit k => simp [leB] at h2
      | hashLeaf w =>
        simp only [leB] at h1 h2 ⊢
        exact leL_trans a b w h1 h2
      | hashNode c d => rfl
    | hashNode c d =>
      cases z with
      | lit k => simp [leB] at h2
      | hashLeaf w => simp [leB] at h2
      | hashNode e f => rfl
  | hashNode a b iha ihb =>
    cases y with
    | lit n => simp [leB] at h1
    | hashLeaf w => simp [leB] at h1
    | hashNode c d =>
      cases z with
      | lit k => simp [leB] at h2
      | hashLeaf w => simp [leB] at h2
      | hashNode e f =>
        by_cases hac : a = c <;> by_cases hce : c = e
        · subst hac; subst hce
          simp only [leB, if_pos rfl] at h1 h2 ⊢
          exact ihb d f h1 h2
        · subst hac
          have hae : ¬ a = e := hce
          simp only [leB, if_pos rfl, if_neg hce, if_neg hae] at h1 h2 ⊢
          exact h2
        · subst hce
          simp only [leB, if_neg hac] at h1
          simp only [leB, if_neg hac]
          exact h1
        · simp only [leB, if_neg hac, if_neg hce] at h1 h2
          by_cases hae : a = e
          · subst hae
            exact absurd (leB_antisymm a c h1 h2) hac
          · simp only [leB, if_neg hae]
            exact iha c e h1 h2

/-- Hash of a sorted sibling pair: keccak256 of the concatenation of the
two digests, smaller digest first.  This is the pair step both of
merkletreejs with the sortPairs option and of the OpenZeppelin
MerkleProof hashPair helper used by the contract. -/
def combine (a b : B32) : B32 :=
  if leB a b then B32.hashNode a b else B32.hashNode b a

theorem combine_comm (a b : B32) : combine a b = combine b a := by
  unfold combine
  by_cases hab : leB a b = true
  · by_cases hba : leB b a = true
    · rw [leB_antisymm a b hab hba]
    · simp [hab, hba]
  · rcases leB_total a b with h | h
    · exact absurd h hab
    · simp [hab, h]

/-- OpenZeppelin MerkleProof.processProof: fold the sorted-pair hash over
the proof path, starting from the leaf. -/
def processProof (leaf : B32) (proof : List B32) : B32 :=
  proof.foldl combine leaf

/-- OpenZeppelin MerkleProof.verify, as called by claimSubdomain and
verifyMerkleProof: recompute the root from leaf and proof path and
compare with the stored root. -/
def verify (proof : List B32) (root leaf : B32) : Bool :=
  decide (processProof leaf proof = root)

/-- All keccak-of-packed-bytes subterms of a digest term: the leaf-form
digests a term was built from. -/
def termLeaves : B32 → List B32
  | .lit _ => []
  | .hashLeaf bs => [.hashLeaf bs]
  | .hashNode a b => termLeaves a ++ termLeaves b

/-- One level of the merkletreejs tree build: hash adjacent sibling
pairs (sorted), promoting an unpaired final node unchanged. -/
def hashLevel : List B32 → List B32
  | [] => []
  | [a] => [a]
  | a :: b :: rest => combine a b :: hashLevel rest

theorem hashLevel_length (l : List B32) :
    (hashLevel l).length = (l.length + 1) / 2 := by
  match l with
  | [] => rfl
  | [a] => simp [hashLevel]
  | a :: b :: rest =>
    have ih := hashLevel_length rest
    simp only [hashLevel, List.length_cons, ih]
    omega

theorem hashLevel_getElem (l : List B32) (k : Nat) :
    (hashLevel l)[k]? =
      match l[2 * k]?, l[2 * k + 1]? with
      | some x, some y => some (combine x y)
      | some x, none => some x
      | none, _ => none := by
  match l, k with
  | [], k => simp [hashLevel]
  | [a], 0 => simp [hashLevel]
  | [a], k + 1 =>
    have e1 : 2 * (k + 1) = (2 * k + 1) + 1 := by omega
    have e2 : 2 * (k + 1) + 1 = (2 * k + 2) + 1 := by omega
    simp [hashLevel, e1, e2]
  | a :: b :: rest, 0 => simp [hashLevel]
  | a :: b :: rest, k + 1 =>
    have ih := hashLevel_getElem rest k
    have h1 : 2 * (k + 1) = (2 * k) + 1 + 1 := by omega
    have h2 : 2 * (k + 1) + 1 = (2 * k + 1) + 1 + 1 := by omega
    simp only [hashLevel, h1, h2, List.getElem?_cons_succ, ih]

/-- Root of the merkletreejs build: repeatedly hash levels until one
digest remains.  A single leaf is its own root; the empty case never
arises because the builder rejects empty record sets. -/
def buildRoot (l : List B32) : B32 :=
  match l with
  | [] => B32.lit 0
  | [a] => a
  | a :: b :: rest => buildRoot (hashLevel (a :: b :: rest))
termination_by l.length
decreasing_by
  simp only [hashLevel_length, List.length_cons]
  omega

/-- Sibling-digest path that merkletreejs getProof returns for the leaf
at position i of the bottom layer: at every layer take the digest paired
with the current position (if the position is unpaired, nothing is
added), then move to the parent position. -/
def proofAt (l : List B32) (i : Nat) : List B32 :=
  match l with
  | [] => []
  | [_] => []
  | a :: b :: rest =>
    (match (a :: b :: rest)[if i % 2 = 0 then i + 1 else i - 1]? with
     | some s => [s]
     | none => []) ++ proofAt (hashLevel (a :: b :: rest)) (i / 2)
termination_by l.length
decreasing_by
  simp only [hashLevel_length, List.length_cons]
  omega

/-- Index of the first occurrence of a digest in a layer, the JS
Array.indexOf the proof service uses to locate a leaf. -/
def idxOf (x : B32) : List B32 → Nat
  | [] => 0
  | a :: l => if a = x then 0 else idxOf x l + 1

theorem idxOf_lt {x : B32} {l : List B32} (h : x ∈ l) : idxOf x l < l.length := by
  induction l with
  | nil => cases h
  | cons a l ih =>
    by_cases hax : a = x
    · simp [idxOf, hax]
    · rcases List.mem_cons.mp h with h' | h'
      · exact absurd h'.symm hax
      · simp only [idxOf, if_neg hax, List.length_cons]
        exact Nat.succ_lt_succ (ih h')

theorem get_idxOf {x : B32} {l : List B32} (h : x ∈ l) :
    l.get ⟨idxOf x l, idxOf_lt h⟩ = x := by
  induction l with
  | nil => cases h
  | cons a l ih =>
    by_cases hax : a = x
    · simp [idxOf, hax]
    · rcases List.mem_cons.mp h with h' | h'
      · exact absurd h'.symm hax
      · simp only [idxOf, if_neg hax]
        exact ih h'

/-- The digest order as a relation, for the leaf sort of the builder
(the sortLeaves option of merkletreejs). -/
def digestLE (a b : B32) : Prop := leB a b = true

instance : DecidableRel digestLE :=
  fun a b => inferInstanceAs (Decidable (leB a b = true))

instance : IsTotal B32 digestLE := ⟨leB_total⟩

instance : IsTrans B32 digestLE := ⟨leB_trans⟩

instance : IsAntisymm B32 digestLE := ⟨leB_antisymm⟩

/-- Sorted bottom layer of the tree: merkletreejs sorts the leaves
before building when sortLeaves is set. -/
def sortLeaves (l : List B32) : List B32 :=
  List.insertionSort digestLE l


theorem hashLevel_get_eq (l : List B32) (i : Nat) (hi : i < l.length)
    (hh : i / 2 < (hashLevel l).length) :
    (hashLevel l).get ⟨i / 2, hh⟩ =
      List.foldl combine (l.get ⟨i, hi⟩)
        (match l[if i % 2 = 0 then i + 1 else i - 1]? with
         | some s => [s]
         | none => []) := by
  have hsome : (hashLevel l)[i / 2]? = some ((hashLevel l)[i / 2]) :=
    List.getElem?_eq_getElem hh
  have hkey := hashLevel_getElem l (i / 2)
  rcases Nat.mod_two_eq_zero_or_one i with hpar | hpar
  · have hdiv : 2 * (i / 2) = i := by omega
    rw [hdiv] at hkey
    rw [if_pos hpar]
    by_cases hj : i + 1 < l.length
    · rw [List.getElem?_eq_getElem hi, List.getElem?_eq_getElem hj] at hkey
      rw [List.getElem?_eq_getElem hj]
      simp only [List.foldl_cons, List.foldl_nil, List.get_eq_getElem]
      exact Option.some.inj (hsome.symm.trans hkey)
    · rw [List.getElem?_eq_getElem hi,
        List.getElem?_eq_none (Nat.le_of_not_lt hj)] at hkey
      rw [List.getElem?_eq_none (Nat.le_of_not_lt hj)]
      simp only [List.foldl_nil, List.get_eq_getElem]
      exact Option.some.inj (hsome.symm.trans hkey)
  · have hpar' : ¬ i % 2 = 0 := by omega
    have hdiv1 : 2 * (i / 2) + 1 = i := by omega
    have hdiv : 2 * (i / 2) = i - 1 := by omega
    have hj : i - 1 < l.length := by omega
    rw [hdiv1] at hkey
    rw [hdiv] at hkey
    rw [List.getElem?_eq_getElem hi, List.getElem?_eq_getElem hj] at hkey
    rw [if_neg hpar', List.getElem?_eq_getElem hj]
    simp only [List.foldl_cons, List.foldl_nil, List.get_eq_getElem]
    rw [combine_comm]
    exact Option.some.inj (hsome.symm.trans hkey)

theorem processProof_proofAt (l : List B32) (i : Nat) (hi : i < l.length) :
    processProof (l.get ⟨i, hi⟩) (proofAt l i) = buildRoot l := by
  match l with
  | [] => simp at hi
  | [a] =>
    have hi0 : i = 0 := by
      simp only [List.length_cons, List.length_nil] at hi
      omega
    subst hi0
    simp [proofAt, processProof, buildRoot]
  | a :: b :: rest =>
    have hhalf : i / 2 < (hashLevel (a :: b :: rest)).length := by
      rw [hashLevel_length]
      simp only [List.length_cons] at hi ⊢
      omega
    have hrec := processProof_proofAt (hashLevel (a :: b :: rest)) (i / 2) hhalf
    have hstep := hashLevel_get_eq (a :: b :: rest) i hi hhalf
    have hroot : buildRoot (a :: b :: rest) = buildRoot (hashLevel (a :: b :: rest)) := by
      conv_lhs => rw [buildRoot]
    rw [hroot, ← hrec]
    have hproof : proofAt (a :: b :: rest) i =
        (match (a :: b :: rest)[if i % 2 = 0 then i + 1 else i - 1]? with
         | some s => [s]
         | none => []) ++ proofAt (hashLevel (a :: b :: rest)) (i / 2) := by
      conv_lhs => rw [proofAt]
    rw [hproof]
    simp only [processProof, List.foldl_append]
    rw [← hstep]
termination_by l.length
decreasing_by
  simp only [hashLevel_length, List.length_cons]
  omega

theorem termLeaves_combine {y : B32} (a b : B32) :
    y ∈ termLeaves (combine a b) ↔ y ∈ termLeaves a ∨ y ∈ termLeaves b := by
  unfold combine
  by_cases h : leB a b = true
  · simp [h, termLeaves]
  · simp [h, termLeaves]
    exact Or.comm

theorem termLeaves_processProof {y x : B32} (p : List B32)
    (h : y ∈ termLeaves x) : y ∈ termLeaves (processProof x p) := by
  induction p generalizing x with
  | nil => exact h
  | cons q p ih =>
    simp only [processProof, List.foldl_cons]
    exact ih ((termLeaves_combine x q).mpr (Or.inl h))

theorem termLeaves_hashLevel {y x : B32} (l : List B32)
    (hx : x ∈ hashLevel l) (hy : y ∈ termLeaves x) :
    ∃ z ∈ l, y ∈ termLeaves z := by
  match l with
  | [] => cases hx
  | [a] =>
    simp only [hashLevel, List.mem_singleton] at hx
    exact ⟨a, by simp, hx ▸ hy⟩
  | a :: b :: rest =>
    simp only [hashLevel, List.mem_cons] at hx
    rcases hx with hx | hx
    · rcases (termLeaves_combine a b).mp (hx ▸ hy) with h | h
      · exact ⟨a, by simp, h⟩
      · exact ⟨b, by simp, h⟩
    · rcases termLeaves_hashLevel rest hx hy with ⟨z, hz, hyz⟩
      exact ⟨z, by simp [hz], hyz⟩

theorem termLeaves_buildRoot {y : B32} (l : List B32)
    (h : y ∈ termLeaves (buildRoot l)) : ∃ z ∈ l, y ∈ termLeaves z := by
  match l with
  | [] => simp [buildRoot, termLeaves] at h
  | [a] =>
    simp only [buildRoot] at h
    exact ⟨a, by simp, h⟩
  | a :: b :: rest =>
    have hr : buildRoot (a :: b :: rest) = buildRoot (hashLevel (a :: b :: rest)) := by
      conv_lhs => rw [buildRoot]
    rw [hr] at h
    rcases termLeaves_buildRoot (hashLevel (a :: b :: rest)) h with ⟨z, hz, hyz⟩
    exact termLeaves_hashLevel (a :: b :: rest) hz hyz
termination_by l.length
decreasing_by
  simp only [hashLevel_length, List.length_cons]
  omega

/-- One entitlement record of the distribution list: holder address (a
160-bit value), subdomain label and 64-bit expiry, as parsed from a CSV
row by the backend. -/
structure EntitlementRecord where
  address : Nat
  subdomain : String
  expiry : Nat
deriving DecidableEq, Repr

/-- Leaf hash the off-chain builder computes for a record:
solidityPackedKeccak256 over types address, string, uint64, i.e.
keccak256 of 20 address bytes, the UTF-8 label bytes and 8 big-endian
expiry bytes. -/
def builderLeaf (r : EntitlementRecord) : B32 :=
  B32.hashLeaf (beBytes 20 r.address ++ encString r.subdomain ++ beBytes 8 r.expiry)

/-- Leaf hash recomputed on-chain by claimSubdomain:
keccak256 of abi.encodePacked of msg.sender (20 bytes), the subdomain
string bytes and the uint64 expiry (8 big-endian bytes). -/
def leafHash (sender : Nat) (subdomain : String) (expiry : Nat) : B32 :=
  B32.hashLeaf (beBytes 20 sender ++ encString subdomain ++ beBytes 8 expiry)

/-- Commitment hash of the commit-reveal scheme:
keccak256 of abi.encodePacked of msg.sender, the subdomain string, the
uint64 expiry and the uint256 nonce (32 big-endian bytes). -/
def blindHash (sender : Nat) (subdomain : String) (expiry nonce : Nat) : B32 :=
  B32.hashLeaf
    (beBytes 20 sender ++ encString subdomain ++ beBytes 8 expiry ++ beBytes 32 nonce)

/-- Iterate hashLevel a fixed number of times; once a layer has at most
one digest, further iterations are the identity. -/
def hashLevels : Nat → List B32 → List B32
  | 0, l => l
  | n + 1, l => hashLevels n (hashLevel l)

/-- Kernel-computable form of the root: length-many level steps, then
the head digest. -/
def buildRootX (l : List B32) : B32 :=
  (hashLevels l.length l).headD (B32.lit 0)

theorem hashLevels_small (n : Nat) (l : List B32) (h : l.length ≤ 1) :
    hashLevels n l = l := by
  induction n generalizing l with
  | zero => rfl
  | succ n ih =>
    cases l with
    | nil => simpa [hashLevels, hashLevel] using ih [] (by simp)
    | cons a t =>
      cases t with
      | nil => simpa [hashLevels, hashLevel] using ih [a] (by simp)
      | cons b t2 => simp at h

theorem buildRootX_eq_aux (n : Nat) (l : List B32) (h : l.length ≤ n) :
    (hashLevels n l).headD (B32.lit 0) = buildRoot l := by
  induction n generalizing l with
  | zero =>
    cases l with
    | nil => simp [hashLevels, buildRoot]
    | cons a t => simp at h
  | succ n ih =>
    match l with
    | [] =>
      rw [hashLevels_small (n + 1) [] (by simp)]
      simp [buildRoot]
    | [a] =>
      rw [hashLevels_small (n + 1) [a] (by simp)]
      simp [buildRoot]
    | a :: b :: rest =>
      have hstep : hashLevels (n + 1) (a :: b :: rest) =
          hashLevels n (hashLevel (a :: b :: rest)) := rfl
      have hroot : buildRoot (a :: b :: rest) =
          buildRoot (hashLevel (a :: b :: rest)) := by
        conv_lhs => rw [buildRoot]
      rw [hstep, hroot]
      refine ih (hashLevel (a :: b :: rest)) ?_
      rw [hashLevel_length]
      simp only [List.length_cons] at h ⊢
      omega

theorem buildRootX_eq (l : List B32) : buildRootX l = buildRoot l :=
  buildRootX_eq_aux l.length l (Nat.le_refl _)

/-- Kernel-computable form of the sibling path, fuelled by the layer
length. -/
def proofAtF : Nat → List B32 → Nat → List B32
  | 0, _, _ => []
  | _ + 1, [], _ => []
  | _ + 1, [_], _ => []
  | fuel + 1, a :: b :: rest, i =>
    (match (a :: b :: rest)[if i % 2 = 0 then i + 1 else i - 1]? with
     | some s => [s]
     | none => []) ++ proofAtF fuel (hashLevel (a :: b :: rest)) (i / 2)

theorem proofAtF_eq (n : Nat) (l : List B32) (i : Nat) (h : l.length ≤ n) :
    proofAtF n l i = proofAt l i := by
  induction n generalizing l i with
  | zero =>
    cases l with
    | nil => simp [proofAtF, proofAt]
    | cons a t => simp at h
  | succ n ih =>
    match l with
    | [] => simp [proofAtF, proofAt]
    | [a] => simp [proofAtF, proofAt]
    | a :: b :: rest =>
      have hrhs : proofAt (a :: b :: rest) i =
          (match (a :: b :: rest)[if i % 2 = 0 then i + 1 else i - 1]? with
           | some s => [s]
           | none => []) ++ proofAt (hashLevel (a :: b :: rest)) (i / 2) := by
        conv_lhs => rw [proofAt]
      rw [hrhs]
      simp only [proofAtF]
      congr 1
      refine ih (hashLevel (a :: b :: rest)) (i / 2) ?_
      rw [hashLevel_length]
      simp only [List.length_cons] at h ⊢
      omega

def proofAtX (l : List B32) (i : Nat) : List B32 :=
  proofAtF l.length l i

theorem proofAtX_eq (l : List B32) (i : Nat) : proofAtX l i = proofAt l i :=
  proofAtF_eq l.length l i (Nat.le_refl _)

/-- Merkle root the backend computes for a record list: leaves in sorted
order, then pairwise sorted hashing level by level. -/
def merkleRootOf (rs : List EntitlementRecord) : B32 :=
  buildRootX (sortLeaves (rs.map builderLeaf))

/-- Proof path the backend proof service returns for a leaf: the sibling
path starting at the first position of the leaf in the sorted bottom
layer. -/
def getProofFor (rs : List EntitlementRecord) (leaf : B32) : List B32 :=
  proofAtX (sortLeaves (rs.map builderLeaf)) (idxOf leaf (sortLeaves (rs.map builderLeaf)))

/-- Custom errors of the enhanced BulkSubdomainFactory contract, plus
the Ownable access failure and the checked-arithmetic panic. -/
inductive Err where
  | ContractIsPaused
  | NotAuthorized
  | ConfigNotActive
  | AlreadyClaimed
  | RevealTooEarly
  | SubdomainAlreadyClaimed
  | InvalidMerkleProof
  | ExpiryExceedsParent
  | ConfigAlreadyExists
  | InvalidParameters
  | NotOwner
  | Overflow
deriving DecidableEq, Repr

/-- Per-domain configuration struct of the contract.  totalSubdomains
and claimedCount are uint64 fields. -/
structure Config where
  merkleRoot : B32
  parentNode : B32
  parentDomain : String
  parentOwner : Nat
  defaultFuses : Nat
  active : Bool
  totalSubdomains : Nat
  claimedCount : Nat
deriving DecidableEq, Repr

/-- Solidity default value of a Config mapping slot. -/
def defaultConfig : Config :=
  { merkleRoot := B32.lit 0
    parentNode := B32.lit 0
    parentDomain := ""
    parentOwner := 0
    defaultFuses := 0
    active := false
    totalSubdomains := 0
    claimedCount := 0 }

/-- Contract storage: owner and paused flag, the four mappings as
association lists (absence from the list is the mapping default). -/
structure State where
  owner : Nat
  paused : Bool
  configs : List (B32 × Config)
  claimed : List B32
  hasClaimed : List Nat
  commitments : List (B32 × Nat)
deriving DecidableEq, Repr

/-- Post-deployment storage of the contract. -/
def State.start (owner : Nat) : State :=
  { owner := owner
    paused := false
    configs := []
    claimed := []
    hasClaimed := []
    commitments := [] }

/-- Association-list lookup, leftmost entry wins. -/
def lookupKV {α : Type} : List (B32 × α) → B32 → Option α
  | [], _ => none
  | (k', v) :: l, k => if k' = k then some v else lookupKV l k

/-- Mapping write: bind key to value, dropping older bindings. -/
def setKV {α : Type} (l : List (B32 × α)) (k : B32) (v : α) : List (B32 × α) :=
  (k, v) :: l.filter (fun kv => kv.1 ≠ k)

/-- Mapping delete, as the Solidity delete statement on one key. -/
def eraseKey {α : Type} (l : List (B32 × α)) (k : B32) : List (B32 × α) :=
  l.filter (fun kv => kv.1 ≠ k)

theorem lookupKV_setKV_self {α : Type} (l : List (B32 × α)) (k : B32) (v : α) :
    lookupKV (setKV l k v) k = some v := by
  simp [setKV, lookupKV]

theorem lookupKV_filter_ne {α : Type} (l : List (B32 × α)) (k k' : B32)
    (h : k' ≠ k) :
    lookupKV (l.filter (fun kv => kv.1 ≠ k)) k' = lookupKV l k' := by
  induction l with
  | nil => rfl
  | cons kv l ih =>
    cases kv with
    | mk k1 v1 =>
      rw [List.filter_cons]
      by_cases hk : k1 = k
      · have hd : (decide ((k1, v1).1 ≠ k)) = false := by simp [hk]
        rw [hd]
        simp only [Bool.false_eq_true, if_false]
        rw [ih]
        subst hk
        have hne : ¬ k1 = k' := fun hh => h hh.symm
        simp [lookupKV, hne]
      · have hd : (decide ((k1, v1).1 ≠ k)) = true := by simp [hk]
        rw [hd]
        simp only [if_true]
        simp only [lookupKV]
        by_cases hk' : k1 = k'
        · simp [hk']
        · simp only [if_neg hk']
          exact ih

theorem lookupKV_filter_self {α : Type} (l : List (B32 × α)) (k : B32) :
    lookupKV (l.filter (fun kv => kv.1 ≠ k)) k = none := by
  induction l with
  | nil => rfl
  | cons kv l ih =>
    cases kv with
    | mk k1 v1 =>
      rw [List.filter_cons]
      by_cases hk : k1 = k
      · have hd : (decide ((k1, v1).1 ≠ k)) = false := by simp [hk]
        rw [hd]
        simpa using ih
      · have hd : (decide ((k1, v1).1 ≠ k)) = true := by simp [hk]
        rw [hd]
        simp only [if_true]
        simp only [lookupKV, if_neg hk]
        exact ih

theorem lookupKV_setKV_ne {α : Type} (l : List (B32 × α)) (k k' : B32) (v : α)
    (h : k' ≠ k) : lookupKV (setKV l k v) k' = lookupKV l k' := by
  simp only [setKV, lookupKV]
  rw [if_neg (fun hh => h hh.symm)]
  exact lookupKV_filter_ne l k k' h

theorem lookupKV_eraseKey_self {α : Type} (l : List (B32 × α)) (k : B32) :
    lookupKV (eraseKey l k) k = none :=
  lookupKV_filter_self l k

theorem lookupKV_eraseKey_ne {α : Type} (l : List (B32 × α)) (k k' : B32)
    (h : k' ≠ k) : lookupKV (eraseKey l k) k' = lookupKV l k' :=
  lookupKV_filter_ne l k k' h

theorem lookupKV_mem {α : Type} {l : List (B32 × α)} {k : B32} {v : α}
    (h : lookupKV l k = some v) : (k, v) ∈ l := by
  induction l with
  | nil => cases h
  | cons kv l ih =>
    cases kv with
    | mk k1 v1 =>
      simp only [lookupKV] at h
      by_cases hk : k1 = k
      · rw [if_pos hk] at h
        subst hk
        exact List.mem_cons.mpr (Or.inl (by rw [Option.some.inj h]))
      · rw [if_neg hk] at h
        exact List.mem_cons.mpr (Or.inr (ih h))

/-- Read a domain config from storage (mapping default when absent). -/
def getCfg (s : State) (p : B32) : Config :=
  (lookupKV s.configs p).getD defaultConfig

/-- Read a commitment timestamp from storage (0 when absent). -/
def getCommit (s : State) (c : B32) : Nat :=
  (lookupKV s.commitments c).getD 0

/-- REVEAL_DELAY, 10 minutes in seconds. -/
def REVEAL_DELAY : Nat := 600

instance : DecidableEq (Except Err State) := fun a b =>
  match a, b with
  | .ok x, .ok y =>
    if h : x = y then isTrue (by rw [h])
    else isFalse (fun hh => h (Except.ok.inj hh))
  | .ok _, .error _ => isFalse (fun hh => Except.noConfusion hh)
  | .error _, .ok _ => isFalse (fun hh => Except.noConfusion hh)
  | .error x, .error y =>
    if h : x = y then isTrue (by rw [h])
    else isFalse (fun hh => h (Except.error.inj hh))

/-- commitClaim of the contract: revert when paused or on the zero
commitment, otherwise record the current block timestamp under the
commitment hash (overwriting any earlier timestamp). -/
def commitClaim (s : State) (now : Nat) (commitment : B32) : Except Err State :=
  if s.paused then .error .ContractIsPaused
  else if commitment = B32.lit 0 then .error .InvalidParameters
  else .ok { s with commitments := setKV s.commitments commitment now }

/-- initializeConfig of the enhanced contract: reject when a config for
the parent node is already active, validate the root and the uint256
total against zero, then store the config with the total truncated to
uint64 (the demo-mode owner check is commented out in the source). -/
def initConfig (s : State) (sender : Nat) (parentNode : B32) (domain : String)
    (merkleRoot : B32) (fuses totalSubdomains : Nat) : Except Err State :=
  if (getCfg s parentNode).active then .error .ConfigAlreadyExists
  else if merkleRoot = B32.lit 0 ∨ totalSubdomains = 0 then .error .InvalidParameters
  else
    .ok { s with configs := setKV s.configs parentNode (Config.mk merkleRoot parentNode domain sender fuses true (totalSubdomains % 2 ^ 64) 0) }

/-- Increment of the claimed counter of a config, the cfg.claimedCount
increment of a successful claim. -/
def bumpCount (cfg : Config) : Config :=
  { cfg with claimedCount := cfg.claimedCount + 1 }

/-- claimSubdomain of the enhanced contract, checks in source order:
pause, active config, holder not yet claimed, expiry against the parent
expiry read from the NameWrapper (passed in as parentExpiry), the
commit-reveal window, the claimed-leaf set, the Merkle proof, then the
state writes (delete the commitment, mark leaf and holder, bump the
uint64 claimed count, reverting on its overflow).  A revert rolls every
write back, so each error returns no successor state; the final external
setSubnodeRecord mint is outside the ledger state. -/
def claimSubdomain (s : State) (now sender parentExpiry : Nat) (parentNode : B32)
    (subdomain : String) (expiry nonce : Nat) (proof : List B32) : Except Err State :=
  if s.paused then .error .ContractIsPaused
  else if (getCfg s parentNode).active = false then .error .ConfigNotActive
  else if s.hasClaimed.contains sender then .error .AlreadyClaimed
  else if parentExpiry < expiry then .error .ExpiryExceedsParent
  else if getCommit s (blindHash sender subdomain expiry nonce) = 0 ∨
      now < getCommit s (blindHash sender subdomain expiry nonce) + REVEAL_DELAY then
    .error .RevealTooEarly
  else if s.claimed.contains (leafHash sender subdomain expiry) then
    .error .SubdomainAlreadyClaimed
  else if verify proof (getCfg s parentNode).merkleRoot
      (leafHash sender subdomain expiry) = false then
    .error .InvalidMerkleProof
  else if 2 ^ 64 ≤ (getCfg s parentNode).claimedCount + 1 then .error .Overflow
  else .ok { s with
    commitments := eraseKey s.commitments (blindHash sender subdomain expiry nonce)
    claimed := leafHash sender subdomain expiry :: s.claimed
    hasClaimed := sender :: s.hasClaimed
    configs := setKV s.configs parentNode
      (bumpCount (getCfg s parentNode)) }

/-- canRevealCommitment view of the contract: a commitment exists (its
timestamp is nonzero) and the reveal delay has elapsed. -/
def canRevealCommitment (s : State) (now : Nat) (c : B32) : Bool :=
  decide (getCommit s c ≠ 0) && decide (getCommit s c + REVEAL_DELAY ≤ now)

/-- pause admin function: onlyOwner, sets the paused flag. -/
def pause (s : State) (sender : Nat) : Except Err State :=
  if sender ≠ s.owner then .error .NotOwner
  else .ok { s with paused := true }

/-- unpause admin function: onlyOwner, clears the paused flag. -/
def unpause (s : State) (sender : Nat) : Except Err State :=
  if sender ≠ s.owner then .error .NotOwner
  else .ok { s with paused := false }

/-- Reachability of a storage state: the deployment state, closed under
the successful state-changing entry points of the contract (a reverted
call leaves storage unchanged, so it never leaves the set). -/
inductive Reach : State → Prop where
  | start (owner : Nat) : Reach (State.start owner)
  | stepInit {s s' : State} (h : Reach s) (sender : Nat) (p : B32) (d : String)
      (root : B32) (fuses total : Nat)
      (hs : initConfig s sender p d root fuses total = .ok s') : Reach s'
  | stepCommit {s s' : State} (h : Reach s) (now : Nat) (c : B32)
      (hs : commitClaim s now c = .ok s') : Reach s'
  | stepClaim {s s' : State} (h : Reach s) (now sender parentExpiry : Nat)
      (p : B32) (sub : String) (expiry nonce : Nat) (proof : List B32)
      (hs : claimSubdomain s now sender parentExpiry p sub expiry nonce proof = .ok s') :
      Reach s'
  | stepPause {s s' : State} (h : Reach s) (sender : Nat)
      (hs : pause s sender = .ok s') : Reach s'
  | stepUnpause {s s' : State} (h : Reach s) (sender : Nat)
      (hs : unpause s sender = .ok s') : Reach s'

/-- Total-allowed count recorded by a config-storing call, none when the
call reverted. -/
def storedTotal (e : Except Err State) (p : B32) : Option Nat :=
  match e with
  | .ok s => some (getCfg s p).totalSubdomains
  | .error _ => none

/-- C2: the leaf hash the off-chain builder computes for an entitlement
record (solidityPackedKeccak256 over address, string, uint64) equals the
leaf hash claimSubdomain recomputes on-chain (keccak256 of
abi.encodePacked of sender, subdomain, uint64 expiry): the two sides use
bit-identical leaf encodings, so every proof the builder produces is
evaluated over the same leaf by the verifier. -/
theorem builder_contract_leaf_agreement (r : EntitlementRecord) :
    builderLeaf r = leafHash r.address r.subdomain r.expiry := rfl

/-- C5: once a parent node's config is active, a further initializeConfig
call for it reverts with ConfigAlreadyExists and produces no successor
state, leaving the stored config unchanged. -/
theorem initConfig_reinit_rejected (s : State) (sender : Nat) (p : B32)
    (d : String) (root : B32) (fuses total : Nat)
    (h : (getCfg s p).active = true) :
    initConfig s sender p d root fuses total = .error .ConfigAlreadyExists ∧
    ∀ s' : State, initConfig s sender p d root fuses total ≠ .ok s' := by
  refine ⟨by simp [initConfig, h], ?_⟩
  intro s'
  simp [initConfig, h]

/-- Witness state for the re-initialization claim: one active config. -/
def wActive : State :=
  { owner := 0
    paused := false
    configs := [(B32.lit 1, Config.mk (B32.lit 7) (B32.lit 1) "demo.eth" 5 0 true 10 0)]
    claimed := []
    hasClaimed := []
    commitments := [] }

/-- Witness for C5 at a concrete active config. -/
theorem initConfig_reinit_rejected_app :
    initConfig wActive 9 (B32.lit 1) "other.eth" (B32.lit 8) 0 3 =
      .error .ConfigAlreadyExists :=
  (initConfig_reinit_rejected wActive 9 (B32.lit 1) "other.eth" (B32.lit 8) 0 3
    (by decide)).1

/-- C10: initializeConfig validates the uint256 totalSubdomains against
zero but stores uint64(totalSubdomains): whenever the call succeeds the
recorded total-allowed count is totalSubdomains mod 2 to the 64. -/
theorem initConfig_total_truncated (s : State) (sender : Nat) (p : B32)
    (d : String) (root : B32) (fuses total : Nat)
    (h1 : (getCfg s p).active = false) (h2 : root ≠ B32.lit 0) (h3 : total ≠ 0) :
    storedTotal (initConfig s sender p d root fuses total) p =
      some (total % 2 ^ 64) := by
  simp only [initConfig, h1, Bool.false_eq_true, if_false]
  rw [if_neg (by simp [h2, h3])]
  simp [storedTotal, getCfg, lookupKV_setKV_self]

/-- Witness for C10 at totalSubdomains two to the 64: the nonzero input
passes validation yet records a total-allowed count of zero. -/
theorem initConfig_total_truncated_app :
    storedTotal
      (initConfig (State.start 0) 7 (B32.lit 1) "demo.eth" (B32.lit 9) 0 (2 ^ 64))
      (B32.lit 1) = some 0 ∧ (2 : Nat) ^ 64 ≠ 0 := by
  refine ⟨?_, by decide⟩
  have h := initConfig_total_truncated (State.start 0) 7 (B32.lit 1) "demo.eth"
    (B32.lit 9) 0 (2 ^ 64) (by decide) (by decide) (by decide)
  simpa using h

/-- C8 counterexample state: a commitment recorded at timestamp 100. -/
def wCommitted : State :=
  { owner := 0
    paused := false
    configs := []
    claimed := []
    hasClaimed := []
    commitments := [(B32.lit 5, 100)] }

/-- C8 counterexample: resubmitting an already-recorded blindHash at a
later block is neither rejected nor an idempotent no-op: the call
succeeds and silently overwrites the stored timestamp (100 becomes 900),
contrary to the claim. -/
theorem commitClaim_resubmit_cex :
    getCommit wCommitted (B32.lit 5) = 100 ∧
    commitClaim wCommitted 900 (B32.lit 5) =
      .ok { wCommitted with commitments := [(B32.lit 5, 900)] } ∧
    getCommit { wCommitted with commitments := [(B32.lit 5, 900)] } (B32.lit 5) = 900 := by
  decide

/-- C8 amended: commitClaim on an already-present blindHash overwrites
the recorded timestamp with the current block timestamp (resetting the
reveal clock); every other commitment entry is unchanged by the call. -/
theorem commitClaim_overwrites (s : State) (now : Nat) (c : B32)
    (hp : s.paused = false) (hz : c ≠ B32.lit 0) :
    commitClaim s now c = .ok { s with commitments := setKV s.commitments c now } ∧
    getCommit { s with commitments := setKV s.commitments c now } c = now ∧
    ∀ c' : B32, c' ≠ c →
      getCommit { s with commitments := setKV s.commitments c now } c' =
        getCommit s c' := by
  refine ⟨by simp [commitClaim, hp, hz], ?_, ?_⟩
  · simp [getCommit, lookupKV_setKV_self]
  · intro c' hc'
    simp [getCommit, lookupKV_setKV_ne _ _ _ _ hc']

/-- Witness for amended C8 at the concrete resubmission state. -/
theorem commitClaim_overwrites_app :
    commitClaim wCommitted 900 (B32.lit 5) =
      .ok { wCommitted with commitments := setKV wCommitted.commitments (B32.lit 5) 900 } ∧
    getCommit { wCommitted with
      commitments := setKV wCommitted.commitments (B32.lit 5) 900 } (B32.lit 5) = 900 ∧
    getCommit { wCommitted with
      commitments := setKV wCommitted.commitments (B32.lit 5) 900 } (B32.lit 6) =
      getCommit wCommitted (B32.lit 6) :=
  ⟨(commitClaim_overwrites wCommitted 900 (B32.lit 5) (by decide) (by decide)).1,
   (commitClaim_overwrites wCommitted 900 (B32.lit 5) (by decide) (by decide)).2.1,
   (commitClaim_overwrites wCommitted 900 (B32.lit 5) (by decide) (by decide)).2.2
     (B32.lit 6) (by decide)⟩

/-- C7: with the earlier checks passing (not paused, config active,
holder not yet claimed), a claim whose requested expiry exceeds the
parent expiry returned by the registrar lookup reverts with
ExpiryExceedsParent (and hence changes no state), while a claim with
expiry at or below the parent expiry never produces that error. -/
theorem claim_expiry_gate (s : State) (now sender parentExpiry : Nat) (p : B32)
    (sub : String) (expiry nonce : Nat) (proof : List B32)
    (hp : s.paused = false) (ha : (getCfg s p).active = true)
    (hh : s.hasClaimed.contains sender = false) :
    (parentExpiry < expiry →
      claimSubdomain s now sender parentExpiry p sub expiry nonce proof =
        .error .ExpiryExceedsParent) ∧
    (expiry ≤ parentExpiry →
      claimSubdomain s now sender parentExpiry p sub expiry nonce proof ≠
        .error .ExpiryExceedsParent) := by
  have hh' : sender ∉ s.hasClaimed := by simpa using hh
  constructor
  · intro hlt
    simp [claimSubdomain, hp, ha, hh', hlt]
  · intro hle
    have hnlt : ¬ parentExpiry < expiry := by omega
    simp only [claimSubdomain, hp, Bool.false_eq_true, if_false, ha, hh, hnlt]
    split
    · simp
    · split
      · simp
      · split
        · simp
        · split
          · simp
          · split
            · simp
            · simp

/-- Witness for C7: the expiry gate at concrete inputs on both sides of
the parent expiry. -/
theorem claim_expiry_gate_app :
    claimSubdomain wActive 0 3 100 (B32.lit 1) "alice" 200 9 [] =
      .error .ExpiryExceedsParent ∧
    claimSubdomain wActive 0 3 100 (B32.lit 1) "alice" 50 9 [] ≠
      .error .ExpiryExceedsParent :=
  ⟨(claim_expiry_gate wActive 0 3 100 (B32.lit 1) "alice" 200 9 []
      (by decide) (by decide) (by decide)).1 (by decide),
   (claim_expiry_gate wActive 0 3 100 (B32.lit 1) "alice" 50 9 []
      (by decide) (by decide) (by decide)).2 (by decide)⟩

/-- Classifier for outcomes of claimSubdomain that lie strictly after
the commit-reveal check: the claimed-leaf check, the proof check, the
counter overflow and success. -/
def pastRevealCheck : Except Err State → Bool
  | .error .SubdomainAlreadyClaimed => true
  | .error .InvalidMerkleProof => true
  | .error .Overflow => true
  | .ok _ => true
  | _ => false

theorem canReveal_false_iff (s : State) (now : Nat) (c : B32) :
    canRevealCommitment s now c = false ↔
      (getCommit s c = 0 ∨ now < getCommit s c + REVEAL_DELAY) := by
  rw [← Bool.not_eq_true]
  simp only [canRevealCommitment, Bool.and_eq_true, decide_eq_true_eq, REVEAL_DELAY]
  omega

theorem claimSubdomain_reduce (s : State) (now sender parentExpiry : Nat) (p : B32)
    (sub : String) (expiry nonce : Nat) (proof : List B32)
    (hp : s.paused = false) (ha : (getCfg s p).active = true)
    (hh : s.hasClaimed.contains sender = false) (he : ¬ parentExpiry < expiry) :
    claimSubdomain s now sender parentExpiry p sub expiry nonce proof =
      (if getCommit s (blindHash sender sub expiry nonce) = 0 ∨
          now < getCommit s (blindHash sender sub expiry nonce) + REVEAL_DELAY then
        .error .RevealTooEarly
      else if s.claimed.contains (leafHash sender sub expiry) then
        .error .SubdomainAlreadyClaimed
      else if verify proof (getCfg s p).merkleRoot (leafHash sender sub expiry) = false then
        .error .InvalidMerkleProof
      else if 2 ^ 64 ≤ (getCfg s p).claimedCount + 1 then .error .Overflow
      else .ok { s with
        commitments := eraseKey s.commitments (blindHash sender sub expiry nonce)
        claimed := leafHash sender sub expiry :: s.claimed
        hasClaimed := sender :: s.hasClaimed
        configs := setKV s.configs p (bumpCount (getCfg s p)) }) := by
  simp only [claimSubdomain, hp, ha, hh]
  rw [if_neg (by decide : ¬ (false = true)), if_neg (by decide : ¬ (true = false)),
    if_neg (by decide : ¬ (false = true)), if_neg he]

/-- C1: with the earlier checks passing (not paused, config active,
holder not yet claimed, expiry within the parent expiry), claimSubdomain
reverts with RevealTooEarly exactly when canRevealCommitment is false
for the blindHash recomputed from (caller, label, expiry, nonce) - that
is, when no commitment is recorded or the ten-minute REVEAL_DELAY has
not yet elapsed - and a revert produces no successor state; when
canRevealCommitment holds, the call proceeds past the commit-reveal
check to the claimed-leaf and Merkle-proof checks. -/
theorem claim_reveal_gate (s : State) (now sender parentExpiry : Nat) (p : B32)
    (sub : String) (expiry nonce : Nat) (proof : List B32)
    (hp : s.paused = false) (ha : (getCfg s p).active = true)
    (hh : s.hasClaimed.contains sender = false) (he : expiry ≤ parentExpiry) :
    (claimSubdomain s now sender parentExpiry p sub expiry nonce proof =
        .error .RevealTooEarly ↔
      canRevealCommitment s now (blindHash sender sub expiry nonce) = false) ∧
    (canRevealCommitment s now (blindHash sender sub expiry nonce) = true →
      pastRevealCheck
        (claimSubdomain s now sender parentExpiry p sub expiry nonce proof) = true) := by
  have hnlt : ¬ parentExpiry < expiry := by omega
  rw [claimSubdomain_reduce s now sender parentExpiry p sub expiry nonce proof hp ha hh hnlt]
  by_cases hcr : getCommit s (blindHash sender sub expiry nonce) = 0 ∨
      now < getCommit s (blindHash sender sub expiry nonce) + REVEAL_DELAY
  · rw [if_pos hcr]
    refine ⟨iff_of_true rfl ((canReveal_false_iff s now _).mpr hcr), ?_⟩
    intro hcan
    rw [(canReveal_false_iff s now (blindHash sender sub expiry nonce)).mpr hcr] at hcan
    exact Bool.noConfusion hcan
  · rw [if_neg hcr]
    refine ⟨⟨?_, ?_⟩, ?_⟩
    · intro hres
      exfalso
      revert hres
      split
      · simp
      · split
        · simp
        · split
          · simp
          · simp
    · intro hfalse
      exact absurd ((canReveal_false_iff s now _).mp hfalse) hcr
    · intro _
      split
      · rfl
      · split
        · rfl
        · split
          · rfl
          · rfl

/-- Witness state for C1: active config and a commitment for holder 3
recorded at timestamp 50. -/
def wCommitReady : State :=
  { owner := 0
    paused := false
    configs := [(B32.lit 1, Config.mk (B32.lit 7) (B32.lit 1) "demo.eth" 5 0 true 10 0)]
    claimed := []
    hasClaimed := []
    commitments := [(blindHash 3 "alice" 100 9, 50)] }

/-- Witness for C1 at block 650, when the ten-minute delay has just
elapsed: the reveal gate equivalence and the progression to the proof
checks, at concrete inputs. -/
theorem claim_reveal_gate_app :
    (claimSubdomain wCommitReady 650 3 1000 (B32.lit 1) "alice" 100 9 [] =
        .error .RevealTooEarly ↔
      canRevealCommitment wCommitReady 650 (blindHash 3 "alice" 100 9) = false) ∧
    pastRevealCheck
      (claimSubdomain wCommitReady 650 3 1000 (B32.lit 1) "alice" 100 9 []) = true :=
  ⟨(claim_reveal_gate wCommitReady 650 3 1000 (B32.lit 1) "alice" 100 9 []
      (by decide) (by decide) (by decide) (by decide)).1,
   (claim_reveal_gate wCommitReady 650 3 1000 (B32.lit 1) "alice" 100 9 []
      (by decide) (by decide) (by decide) (by decide)).2 (by decide)⟩

/-- State just before a first successful claim of the alice leaf: a
one-leaf tree whose root is the leaf itself, and a matured commitment. -/
def wBeforeClaim : State :=
  { owner := 0
    paused := false
    configs := [(B32.lit 1,
      Config.mk (leafHash 3 "alice" 100) (B32.lit 1) "demo.eth" 7 0 true 5 0)]
    claimed := []
    hasClaimed := []
    commitments := [(blindHash 3 "alice" 100 9, 1)] }

/-- State after that claim succeeds. -/
def wAfterClaim : State :=
  { owner := 0
    paused := false
    configs := [(B32.lit 1,
      Config.mk (leafHash 3 "alice" 100) (B32.lit 1) "demo.eth" 7 0 true 5 1)]
    claimed := [leafHash 3 "alice" 100]
    hasClaimed := [3]
    commitments := [] }

/-- C4 counterexample: after the alice leaf is claimed, replaying the
very same leaf reverts with AlreadyClaimed, not SubdomainAlreadyClaimed
as the claim states: the holder check precedes the leaf check and the
leaf hash determines its holder, so the holder guard always fires
first. -/
theorem claim_leaf_replay_cex :
    claimSubdomain wBeforeClaim 601 3 1000 (B32.lit 1) "alice" 100 9 [] =
      .ok wAfterClaim ∧
    wAfterClaim.claimed.contains (leafHash 3 "alice" 100) = true ∧
    claimSubdomain wAfterClaim 1300 3 1000 (B32.lit 1) "alice" 100 9 [] =
      .error .AlreadyClaimed ∧
    claimSubdomain wAfterClaim 1300 3 1000 (B32.lit 1) "alice" 100 9 [] ≠
      .error .SubdomainAlreadyClaimed := by
  decide

/-- C4 amended: exactly-once redemption.  After a successful claim the
leaf is in the claimed-leaf set and the holder in the claimed-holder
set; any further claim by that holder - in particular any replay of the
already-claimed leaf, whose hash determines its holder - reverts with
the StateError AlreadyClaimed, because the holder check precedes the
leaf check; the StateError SubdomainAlreadyClaimed guards the
claimed-leaf set, firing for a claimed leaf whenever the caller is not
(yet) in the claimed-holder set.  Reverts produce no successor state. -/
theorem claim_exactly_once (s s2 : State) (now sender parentExpiry : Nat) (p : B32)
    (sub : String) (expiry nonce : Nat) (proof : List B32)
    (h : claimSubdomain s now sender parentExpiry p sub expiry nonce proof = .ok s2) :
    s2.claimed.contains (leafHash sender sub expiry) = true ∧
    s2.hasClaimed.contains sender = true ∧
    (∀ (now2 pe2 : Nat) (sub2 : String) (e2 n2 : Nat) (pr2 : List B32),
      claimSubdomain s2 now2 sender pe2 p sub2 e2 n2 pr2 = .error .AlreadyClaimed) ∧
    (∀ (s3 : State) (now3 sender3 pe3 : Nat) (p3 : B32) (sub3 : String)
      (e3 n3 : Nat) (pr3 : List B32),
      s3.paused = false → (getCfg s3 p3).active = true →
      s3.hasClaimed.contains sender3 = false → ¬ pe3 < e3 →
      canRevealCommitment s3 now3 (blindHash sender3 sub3 e3 n3) = true →
      s3.claimed.contains (leafHash sender3 sub3 e3) = true →
      claimSubdomain s3 now3 sender3 pe3 p3 sub3 e3 n3 pr3 =
        .error .SubdomainAlreadyClaimed) := by
  unfold claimSubdomain at h
  split at h
  · exact Except.noConfusion h
  · split at h
    · exact Except.noConfusion h
    · split at h
      · exact Except.noConfusion h
      · split at h
        · exact Except.noConfusion h
        · split at h
          · exact Except.noConfusion h
          · split at h
            · exact Except.noConfusion h
            · split at h
              · exact Except.noConfusion h
              · split at h
                · exact Except.noConfusion h
                · rename_i hp1 ha1 hh1 he1 hr1 hl1 hv1 ho1
                  have hs2 := Except.ok.inj h
                  subst hs2
                  have hpF : s.paused = false := by
                    simpa using hp1
                  have haT : (getCfg s p).active = true := by
                    simpa using ha1
                  refine ⟨by simp, by simp, ?_, ?_⟩
                  · intro now2 pe2 sub2 e2 n2 pr2
                    have haT' : ((lookupKV s.configs p).getD defaultConfig).active = true := haT
                    simp [claimSubdomain, hpF, getCfg, lookupKV_setKV_self, bumpCount, haT']
                  · intro s3 now3 sender3 pe3 p3 sub3 e3 n3 pr3 hp3 ha3 hh3 he3 hcr3 hcl3
                    rw [claimSubdomain_reduce s3 now3 sender3 pe3 p3 sub3 e3 n3 pr3
                      hp3 ha3 hh3 he3]
                    rw [if_neg (fun hc => Bool.noConfusion
                      (((canReveal_false_iff s3 now3 (blindHash sender3 sub3 e3 n3)).mpr
                        hc) ▸ hcr3))]
                    rw [if_pos hcl3]

/-- State with a claimed leaf whose holder is not in the claimed-holder
set, exercising the claimed-leaf guard. -/
def wGhost : State :=
  { owner := 0
    paused := false
    configs := [(B32.lit 1, Config.mk (B32.lit 7) (B32.lit 1) "demo.eth" 7 0 true 5 0)]
    claimed := [leafHash 4 "carol" 100]
    hasClaimed := []
    commitments := [(blindHash 4 "carol" 100 9, 1)] }

/-- Witness for amended C4: the exactly-once properties applied to a
concrete successful claim, a concrete holder retry with a different
leaf, and a concrete claimed-leaf replay with an unmarked holder. -/
theorem claim_exactly_once_app :
    wAfterClaim.claimed.contains (leafHash 3 "alice" 100) = true ∧
    wAfterClaim.hasClaimed.contains 3 = true ∧
    claimSubdomain wAfterClaim 1300 3 1000 (B32.lit 1) "bob" 90 11 [] =
      .error .AlreadyClaimed ∧
    claimSubdomain wGhost 601 4 1000 (B32.lit 1) "carol" 100 9 [] =
      .error .SubdomainAlreadyClaimed :=
  have h := claim_exactly_once wBeforeClaim wAfterClaim 601 3 1000 (B32.lit 1)
    "alice" 100 9 [] (by decide)
  ⟨h.1, h.2.1, h.2.2.1 1300 1000 "bob" 90 11 [],
   h.2.2.2 wGhost 601 4 1000 (B32.lit 1) "carol" 100 9 []
     (by decide) (by decide) (by decide) (by decide) (by decide) (by decide)⟩

/-- Trace for the C6 counterexample: initialize a config allowing one
subdomain over a two-leaf tree, commit for both holders, then both
holders claim successfully. -/
def capStep1 : Except Err State :=
  initConfig (State.start 0) 7 (B32.lit 1) "demo.eth"
    (combine (leafHash 3 "alice" 100) (leafHash 4 "bob" 100)) 0 1

def capStep2 : Except Err State :=
  capStep1.bind (fun s => commitClaim s 1 (blindHash 3 "alice" 100 9))

def capStep3 : Except Err State :=
  capStep2.bind (fun s => commitClaim s 1 (blindHash 4 "bob" 100 9))

def capStep4 : Except Err State :=
  capStep3.bind (fun s =>
    claimSubdomain s 601 3 1000 (B32.lit 1) "alice" 100 9 [leafHash 4 "bob" 100])

def capStep5 : Except Err State :=
  capStep4.bind (fun s =>
    claimSubdomain s 601 4 1000 (B32.lit 1) "bob" 100 9 [leafHash 3 "alice" 100])

/-- Detector for a violated capacity bound: the call chain succeeded and
some config records more claims than its total-allowed count. -/
def capViolation (e : Except Err State) (p : B32) : Bool :=
  match e with
  | .ok s => decide ((getCfg s p).totalSubdomains < (getCfg s p).claimedCount)
  | .error _ => false

/-- C6 counterexample: a reachable trace (config with totalSubdomains 1,
two commits, two valid claims by distinct holders) ends with
claimedCount 2 exceeding totalSubdomains 1: claimSubdomain never checks
the claimed count against the total, so the invariant fails. -/
theorem cap_invariant_cex : capViolation capStep5 (B32.lit 1) = true := by
  decide

/-- C6 amended: the per-domain claimed count is not bounded by
totalSubdomains (no operation checks it); what every operation does
preserve, in every reachable state, is that each config's claimedCount
never exceeds the total number of redeemed leaves: initialization
starts a config at zero, each successful claim adds one leaf while
bumping exactly one config, and commit, pause and unpause touch neither.
-/
theorem claimedCount_le_claimed (s : State) (h : Reach s) :
    ∀ kv ∈ s.configs, kv.2.claimedCount ≤ s.claimed.length := by
  induction h with
  | start owner =>
    intro kv hkv
    simp [State.start] at hkv
  | stepInit h sender p d root fuses total hs ih =>
    unfold initConfig at hs
    split at hs
    · exact Except.noConfusion hs
    · split at hs
      · exact Except.noConfusion hs
      · have hse := Except.ok.inj hs
        subst hse
        intro kv hkv
        simp only [setKV, List.mem_cons] at hkv
        rcases hkv with hkv | hkv
        · subst hkv
          exact Nat.zero_le _
        · exact ih kv (List.mem_filter.mp hkv).1
  | stepCommit h now c hs ih =>
    unfold commitClaim at hs
    split at hs
    · exact Except.noConfusion hs
    · split at hs
      · exact Except.noConfusion hs
      · have hse := Except.ok.inj hs
        subst hse
        exact ih
  | stepClaim h now sender parentExpiry p sub expiry nonce proof hs ih =>
    rename_i s0 s1
    unfold claimSubdomain at hs
    split at hs
    · exact Except.noConfusion hs
    · split at hs
      · exact Except.noConfusion hs
      · split at hs
        · exact Except.noConfusion hs
        · split at hs
          · exact Except.noConfusion hs
          · split at hs
            · exact Except.noConfusion hs
            · split at hs
              · exact Except.noConfusion hs
              · split at hs
                · exact Except.noConfusion hs
                · split at hs
                  · exact Except.noConfusion hs
                  · have hse := Except.ok.inj hs
                    subst hse
                    intro kv hkv
                    simp only [setKV, List.mem_cons] at hkv
                    rcases hkv with hkv | hkv
                    · subst hkv
                      simp only [bumpCount, List.length_cons]
                      refine Nat.succ_le_succ ?_
                      unfold getCfg
                      cases hlk : lookupKV s0.configs p with
                      | none => exact Nat.zero_le _
                      | some cfg =>
                        simp only [hlk, Option.getD_some]
                        exact ih (p, cfg) (lookupKV_mem hlk)
                    · have hmem := (List.mem_filter.mp hkv).1
                      exact Nat.le_succ_of_le (ih kv hmem)
  | stepPause h sender hs ih =>
    unfold pause at hs
    split at hs
    · exact Except.noConfusion hs
    · have hse := Except.ok.inj hs
      subst hse
      exact ih
  | stepUnpause h sender hs ih =>
    unfold unpause at hs
    split at hs
    · exact Except.noConfusion hs
    · have hse := Except.ok.inj hs
      subst hse
      exact ih

/-- A reachable state with one freshly initialized config. -/
def wInit1 : State :=
  { owner := 0
    paused := false
    configs := [(B32.lit 1, Config.mk (B32.lit 9) (B32.lit 1) "demo.eth" 7 0 true 5 0)]
    claimed := []
    hasClaimed := []
    commitments := [] }

/-- Witness for amended C6 at a concrete reachable state and its one
config entry. -/
theorem claimedCount_le_claimed_app :
    (B32.lit 1, Config.mk (B32.lit 9) (B32.lit 1) "demo.eth" 7 0 true 5 0).2.claimedCount ≤
      wInit1.claimed.length :=
  claimedCount_le_claimed wInit1
    (Reach.stepInit (Reach.start 0) 7 (B32.lit 1) "demo.eth" (B32.lit 9) 0 5 (by decide))
    (B32.lit 1, Config.mk (B32.lit 9) (B32.lit 1) "demo.eth" 7 0 true 5 0)
    (by decide)

/-- C9: for a fixed record set the builder's Merkle root is independent
of input ordering: the bottom layer is sorted and every sibling pair is
sorted before hashing, so any permutation of the records yields the same
root. -/
theorem merkle_root_perm_invariant (rs1 rs2 : List EntitlementRecord)
    (h : rs1.Perm rs2) : merkleRootOf rs1 = merkleRootOf rs2 := by
  unfold merkleRootOf
  have hsort : sortLeaves (rs1.map builderLeaf) = sortLeaves (rs2.map builderLeaf) := by
    unfold sortLeaves
    exact List.eq_of_perm_of_sorted
      ((List.perm_insertionSort digestLE _).trans
        ((h.map builderLeaf).trans (List.perm_insertionSort digestLE _).symm))
      (List.sorted_insertionSort digestLE _)
      (List.sorted_insertionSort digestLE _)
  rw [hsort]

/-- Witness for C9: two records in both orders yield the same root. -/
theorem merkle_root_perm_invariant_app :
    merkleRootOf
      [EntitlementRecord.mk 3 "alice" 100, EntitlementRecord.mk 4 "bob" 200] =
    merkleRootOf
      [EntitlementRecord.mk 4 "bob" 200, EntitlementRecord.mk 3 "alice" 100] :=
  merkle_root_perm_invariant _ _
    (List.Perm.swap (EntitlementRecord.mk 4 "bob" 200)
      (EntitlementRecord.mk 3 "alice" 100) [])

/-- C3: over any non-empty record set, the proof service's sibling path
for a leaf of the set verifies against the builder's root and that leaf;
and no proof whatsoever makes a leaf hash outside the set verify against
that root (in the ideal-hash model). -/
theorem merkle_proof_complete_sound (rs : List EntitlementRecord) (_hne : rs ≠ []) :
    (∀ r ∈ rs,
      verify (getProofFor rs (builderLeaf r)) (merkleRootOf rs) (builderLeaf r) = true) ∧
    (∀ bs : List Nat, B32.hashLeaf bs ∉ rs.map builderLeaf →
      ∀ pr : List B32, verify pr (merkleRootOf rs) (B32.hashLeaf bs) = false) := by
  constructor
  · intro r hr
    have hmem : builderLeaf r ∈ sortLeaves (rs.map builderLeaf) := by
      unfold sortLeaves
      exact ((List.perm_insertionSort digestLE _).mem_iff).mpr
        (List.mem_map_of_mem builderLeaf hr)
    have hidx := idxOf_lt hmem
    have hget := get_idxOf hmem
    have hmain := processProof_proofAt (sortLeaves (rs.map builderLeaf))
      (idxOf (builderLeaf r) (sortLeaves (rs.map builderLeaf))) hidx
    rw [hget] at hmain
    unfold getProofFor merkleRootOf verify
    rw [proofAtX_eq, buildRootX_eq, hmain]
    simp
  · intro bs hnot pr
    unfold verify
    by_contra hcon
    have hver : processProof (B32.hashLeaf bs) pr =
        buildRoot (sortLeaves (rs.map builderLeaf)) := by
      have hm : processProof (B32.hashLeaf bs) pr = merkleRootOf rs := by
        simpa using hcon
      rw [hm]
      exact (buildRootX_eq (sortLeaves (rs.map builderLeaf)))
    have hin : B32.hashLeaf bs ∈ termLeaves (buildRoot (sortLeaves (rs.map builderLeaf))) := by
      rw [← hver]
      exact termLeaves_processProof pr (by simp [termLeaves])
    rcases termLeaves_buildRoot (sortLeaves (rs.map builderLeaf)) hin with ⟨z, hz, hyz⟩
    have hz' : z ∈ rs.map builderLeaf := by
      unfold sortLeaves at hz
      exact ((List.perm_insertionSort digestLE _).mem_iff).mp hz
    rcases List.mem_map.mp hz' with ⟨r, hr, hrz⟩
    rw [← hrz] at hyz
    have hbz : B32.hashLeaf bs = builderLeaf r := by
      simpa [builderLeaf, termLeaves] using hyz
    exact hnot (by rw [hbz]; exact List.mem_map_of_mem builderLeaf hr)

/-- The two example records of the spec walkthrough. -/
def recAlice : EntitlementRecord := ⟨3, "alice", 100⟩

def recBob : EntitlementRecord := ⟨4, "bob", 200⟩

/-- A leaf encoding outside the two-record example set. -/
def carolLeafBytes : List Nat := beBytes 20 5 ++ encString "carol" ++ beBytes 8 7

/-- Witness for C3 on the spec's two-record example: the alice proof is
one sibling digest and verifies for the alice leaf, and no proof (in
particular the alice proof) verifies the absent carol leaf. -/
theorem merkle_proof_complete_sound_app :
    (getProofFor [recAlice, recBob] (builderLeaf recAlice)).length = 1 ∧
    verify (getProofFor [recAlice, recBob] (builderLeaf recAlice))
      (merkleRootOf [recAlice, recBob]) (builderLeaf recAlice) = true ∧
    verify (getProofFor [recAlice, recBob] (builderLeaf recAlice))
      (merkleRootOf [recAlice, recBob]) (B32.hashLeaf carolLeafBytes) = false :=
  ⟨by decide,
   (merkle_proof_complete_sound [recAlice, recBob] (by decide)).1 recAlice (by decide),
   (merkle_proof_complete_sound [recAlice, recBob] (by decide)).2 carolLeafBytes
     (by decide) (getProofFor [recAlice, recBob] (builderLeaf recAlice))⟩

